import Mathlib

/-!
Shallow embedding of the birdsong custom-command engine
(`src/birdsong/core/custom.py`) and proofs about it.

The Python code matches triggers with the `re` library.  We model the
fragment of `re` that the repository's triggers can exercise: literal
characters, escaped literals, `.` (any character other than a newline),
alternation `|`, grouping `(...)`, and at most one greedy repeater
`*`, `+` or `?` per atom, optionally carrying the lazy modifier `?`
(lazy repetition finds a different match but succeeds on exactly the
same inputs, so it denotes the same language).  A stacked repetition
operator is rejected exactly as `re.compile` rejects it (its "multiple
repeat" error); patterns using unmodelled constructs — character
classes, counted repetition, anchors, extension groups `(?...)`, and
the possessive quantifiers `*+`/`++`/`?+` — are conservatively
rejected.  `compilePattern` models
`re.compile` on that fragment; `Regex.rmatch`, `Regex.mpre` and
`Regex.rsearch` model full match, `re.match` (anchored at the start)
and `re.search` (unanchored).
-/

inductive Regex where
  | emp : Regex
  | eps : Regex
  | char : Char → Regex
  | dot : Regex
  | alt : Regex → Regex → Regex
  | cat : Regex → Regex → Regex
  | star : Regex → Regex
deriving DecidableEq

/-- Relational semantics of the regex fragment: which character lists a
regex matches in full.  `dot` matches any single character other than a
newline, as Python's `.` does without `DOTALL`. -/
inductive Regex.Matches : Regex → List Char → Prop where
  | eps : Regex.Matches .eps []
  | char (c : Char) : Regex.Matches (.char c) [c]
  | dot {c : Char} : c ≠ '\n' → Regex.Matches .dot [c]
  | altL {r₁ r₂ : Regex} {s : List Char} :
      Regex.Matches r₁ s → Regex.Matches (.alt r₁ r₂) s
  | altR {r₁ r₂ : Regex} {s : List Char} :
      Regex.Matches r₂ s → Regex.Matches (.alt r₁ r₂) s
  | cat {r₁ r₂ : Regex} {s₁ s₂ : List Char} :
      Regex.Matches r₁ s₁ → Regex.Matches r₂ s₂ →
      Regex.Matches (.cat r₁ r₂) (s₁ ++ s₂)
  | starEmpty {r : Regex} : Regex.Matches (.star r) []
  | starCat {r : Regex} {s₁ s₂ : List Char} :
      Regex.Matches r s₁ → Regex.Matches (.star r) s₂ →
      Regex.Matches (.star r) (s₁ ++ s₂)

/-- Does the regex accept the empty list? -/
def Regex.nullable : Regex → Bool
  | .emp => false
  | .eps => true
  | .char _ => false
  | .dot => false
  | .alt r₁ r₂ => r₁.nullable || r₂.nullable
  | .cat r₁ r₂ => r₁.nullable && r₂.nullable
  | .star _ => true

/-- Brzozowski derivative of a regex by one character. -/
def Regex.rderiv : Regex → Char → Regex
  | .emp, _ => .emp
  | .eps, _ => .emp
  | .char c, a => if a = c then .eps else .emp
  | .dot, a => if a = '\n' then .emp else .eps
  | .alt r₁ r₂, a => .alt (r₁.rderiv a) (r₂.rderiv a)
  | .cat r₁ r₂, a =>
      if r₁.nullable then .alt (.cat (r₁.rderiv a) r₂) (r₂.rderiv a)
      else .cat (r₁.rderiv a) r₂
  | .star r, a => .cat (r.rderiv a) (.star r)

/-- Executable full-string matcher by repeated derivatives. -/
def Regex.rmatch : Regex → List Char → Bool
  | r, [] => r.nullable
  | r, a :: s => (r.rderiv a).rmatch s

/-- Executable model of an anchored match (Python `re.match`): does some
prefix of the input match the regex? -/
def Regex.mpre : Regex → List Char → Bool
  | r, [] => r.nullable
  | r, a :: s => r.nullable || (r.rderiv a).mpre s

/-- Executable model of an unanchored search (Python `re.search`): does
the regex match a prefix of some suffix of the input? -/
def Regex.rsearch : Regex → List Char → Bool
  | r, [] => r.nullable
  | r, a :: s => r.mpre (a :: s) || r.rsearch s

/-- Postfix repetition operators of the pattern syntax. -/
def Regex.applyPost (r : Regex) (c : Char) : Regex :=
  match c with
  | '*' => .star r
  | '+' => .cat r (.star r)
  | '?' => .alt r .eps
  | _ => r

/-- Characters that cannot stand for themselves in a pattern. -/
def regexMeta : List Char :=
  ['(', ')', '|', '*', '+', '?', '.', '\\', '[', ']', '\x7b', '\x7d', '^', '$']

/-- Is the character one of the repetition operators? -/
def isRepChar (c : Char) : Bool :=
  c = '*' || c = '+' || c = '?'

/-- Parse at most one repetition operator after an atom, optionally
followed by the lazy modifier `?` (which changes which match is found
but not whether one exists, so it leaves the language unchanged).  A
further stacked repetition operator is a parse error, as in
`re.compile` (its "multiple repeat" error); this also conservatively
rejects the possessive quantifiers `*+`, `++`, `?+`, which are not
modelled. -/
def parseReps (r : Regex) : List Char → Option (Regex × List Char)
  | [] => some (r, [])
  | c :: rest =>
      if isRepChar c then
        match rest with
        | '?' :: rest₂ =>
            match rest₂ with
            | d :: _ => if isRepChar d then none else some (r.applyPost c, rest₂)
            | [] => some (r.applyPost c, [])
        | d :: rest₂ =>
            if isRepChar d then none else some (r.applyPost c, d :: rest₂)
        | [] => some (r.applyPost c, [])
      else some (r, c :: rest)

mutual

/-- Parse an alternation (the whole pattern, or a group body). -/
def parseAlt : Nat → List Char → Option (Regex × List Char)
  | 0, _ => none
  | fuel + 1, cs =>
      match parseCat fuel cs with
      | none => none
      | some (r, rest) => parseAltTail fuel r rest

/-- Parse the remaining `|`-separated branches of an alternation. -/
def parseAltTail : Nat → Regex → List Char → Option (Regex × List Char)
  | 0, _, _ => none
  | fuel + 1, r, cs =>
      match cs with
      | '|' :: rest =>
          match parseCat fuel rest with
          | none => none
          | some (r₂, rest₂) => parseAltTail fuel (.alt r r₂) rest₂
      | _ => some (r, cs)

/-- Parse a (possibly empty) concatenation of repeated atoms. -/
def parseCat : Nat → List Char → Option (Regex × List Char)
  | 0, _ => none
  | fuel + 1, cs =>
      match cs with
      | [] => some (.eps, [])
      | ')' :: rest => some (.eps, ')' :: rest)
      | '|' :: rest => some (.eps, '|' :: rest)
      | _ =>
          match parseAtom fuel cs with
          | none => none
          | some (r, rest) =>
              match parseReps r rest with
              | none => none
              | some (r₁, rest₁) =>
                  match parseCat fuel rest₁ with
                  | none => none
                  | some (r₂, rest₂) => some (.cat r₁ r₂, rest₂)

/-- Parse one atom: a group, a dot, an escape, or a literal character. -/
def parseAtom : Nat → List Char → Option (Regex × List Char)
  | 0, _ => none
  | fuel + 1, cs =>
      match cs with
      | [] => none
      | '(' :: rest =>
          match parseAlt fuel rest with
          | some (r, ')' :: rest₁) => some (r, rest₁)
          | _ => none
      | '.' :: rest => some (.dot, rest)
      | '\\' :: c :: rest => if c.isAlphanum then none else some (.char c, rest)
      | '\\' :: [] => none
      | c :: rest => if c ∈ regexMeta then none else some (.char c, rest)

end

/-- Model of `re.compile` on the embedded pattern fragment: `none` models
a raised `re.error`. -/
def compilePattern (s : String) : Option Regex :=
  match parseAlt (4 * s.data.length + 8) s.data with
  | some (r, []) => some r
  | _ => none

/-!
Python string primitives used by `custom.py`, modelled on their ASCII
behaviour: `str.lower`, `str.split()` (split on whitespace runs, no
empty fragments), `str.removeprefix`, and literal substring search.
-/

/-- ASCII model of Python `str.lower` on one character. -/
def lowerChar (c : Char) : Char :=
  if 'A' ≤ c ∧ c ≤ 'Z' then Char.ofNat (c.toNat + 32) else c

/-- ASCII model of Python `str.lower`. -/
def lowerStr (s : String) : String :=
  ⟨s.data.map lowerChar⟩

/-- The characters Python `str.split()` treats as whitespace. -/
def isPySpace (c : Char) : Bool :=
  c = ' ' || c = '\t' || c = '\n' || c = '\r' || c = '\x0b' || c = '\x0c'

/-- Worker for `pySplit`: `acc` holds the reversed current fragment. -/
def splitWsAux : List Char → List Char → List (List Char)
  | [], acc => if acc = [] then [] else [acc.reverse]
  | c :: t, acc =>
      if isPySpace c then
        if acc = [] then splitWsAux t [] else acc.reverse :: splitWsAux t []
      else splitWsAux t (c :: acc)

/-- Model of Python `content.split()`: maximal runs of non-whitespace. -/
def pySplit (s : String) : List String :=
  (splitWsAux s.data []).map (fun l => ⟨l⟩)

/-- Is `p` a prefix of `l`? -/
def listHasPre : List Char → List Char → Bool
  | [], _ => true
  | _ :: _, [] => false
  | a :: p, b :: l => a = b && listHasPre p l

/-- Does `n` occur as a contiguous sublist of the second argument? -/
def listHasSub (n : List Char) : List Char → Bool
  | [] => listHasPre n []
  | b :: l => listHasPre n (b :: l) || listHasSub n l

/-- Model of Python `s.removeprefix(p)`. -/
def removePre (s p : String) : String :=
  if listHasPre p.data s.data then ⟨s.data.drop p.data.length⟩ else s

/-- The claim's notion of case-insensitive literal substring occurrence:
the lowercased needle occurs verbatim inside the lowercased haystack. -/
def SubstrCI (needle hay : String) : Prop :=
  ∃ pre post, (lowerStr hay).data = pre ++ (lowerStr needle).data ++ post


/-!
Embedding of `src/birdsong/core/custom.py`.

Python exceptions are modelled with `Except PyErr`; an `Event` trace
records the externally visible side effects of a dispatch pass (handler
invocations and the message deletion).  Handler coroutines (`actions`)
become pure functions from the message and built command line to
`Except PyErr Bool`; the registry dict becomes an association list that
preserves insertion order, as a Python dict does.
-/

/-- Exceptions that the embedded code can raise. -/
inductive PyErr where
  | typeNone
  | indexError
  | reError
  | yamlError
  | resolveError
  | handlerErr : String → PyErr
deriving DecidableEq

/-- Trigger types, from `CCTriggerType` in `custom.py`. -/
inductive CCTriggerType where
  | CCTriggerNone
  | CCTriggerCommand
  | CCTriggerContains
  | CCTriggerExact
  | CCTriggerRegex
deriving DecidableEq

/-- Model of `CCTriggerType.from_string`. -/
def CCTriggerType.from_string (cmdtype : String) : CCTriggerType :=
  match cmdtype with
  | "command" => .CCTriggerCommand
  | "contains" => .CCTriggerContains
  | "exact" => .CCTriggerExact
  | "regex" => .CCTriggerRegex
  | _ => .CCTriggerNone

/-- Invocation context: the fields of a message that the dispatcher
reads (content, channel name, category name or empty, author's roles). -/
structure Message where
  content : String
  channel : String
  category : String
  authorRoles : List String

/-- Result of `CCManager.build_require_block`. -/
structure RequireBlock where
  channel : String
  category : String
  roles : List String

/-- A handler coroutine: model of the `action` routine loaded for a
command, taking the message, the built command line and the argument
list, and returning the deletion signal (or raising). -/
def CCAction : Type :=
  Message → String → List String → Except PyErr Bool

/-- Model of the `CustomCommand` entity.  `require` is the declared
requirement dictionary (an association list, as parsed from YAML). -/
structure CustomCommand where
  path : String
  trigger : String
  cmdtype : CCTriggerType
  require : List (String × List String)
  actions : CCAction

/-- First-key lookup in a requirement dictionary. -/
def lookupReq (d : List (String × List String)) (k : String) : Option (List String) :=
  (d.find? (fun kv => kv.1 == k)).map (fun kv => kv.2)

/-- Model of `CustomCommand.check_trigger`.  A `CCTriggerNone` command
falls through Python's `match` and returns `None`, i.e. falsy; the
regex-bearing kinds raise `re.error` if the pattern does not compile. -/
def CustomCommand.check_trigger (c : CustomCommand) (cmd : String) : Except PyErr Bool :=
  match c.cmdtype with
  | .CCTriggerNone => .ok false
  | .CCTriggerCommand => .ok (c.trigger == lowerStr cmd)
  | .CCTriggerContains =>
      match compilePattern (lowerStr c.trigger) with
      | none => .error .reError
      | some r => .ok (r.rsearch (lowerStr cmd).data)
  | .CCTriggerExact =>
      match compilePattern c.trigger with
      | none => .error .reError
      | some r => .ok (r.mpre cmd.data)
  | .CCTriggerRegex =>
      match compilePattern c.trigger with
      | none => .error .reError
      | some r => .ok (r.rsearch cmd.data)

/-- Model of `CustomCommand.require_channel`. -/
def CustomCommand.require_channel (c : CustomCommand) (cur : String) : Bool :=
  match lookupReq c.require "channels" with
  | none => true
  | some l => l.contains cur

/-- Model of `CustomCommand.require_category`. -/
def CustomCommand.require_category (c : CustomCommand) (cur : String) : Bool :=
  match lookupReq c.require "categories" with
  | none => true
  | some l => l.contains cur

/-- Model of `CustomCommand.require_a_role`: truthiness of the
intersection of the member's roles with the required role set. -/
def CustomCommand.require_a_role (c : CustomCommand) (memberRoles : List String) : Bool :=
  match lookupReq c.require "roles" with
  | none => true
  | some l => memberRoles.any (fun r => l.contains r)

/-- Model of `CustomCommand.check_requirements`. -/
def CustomCommand.check_requirements (c : CustomCommand) (rb : RequireBlock) : Bool :=
  c.require_channel rb.channel && c.require_category rb.category &&
    c.require_a_role rb.roles

/-- Model of `CCManager.build_command_line`.  `prefixStr` is the
configured bot prefix.  Raising is modelled with `Except`: the explicit
`Exception` for a `None` kind, and the `IndexError` from `fragments[0]`
when the content has no fragments. -/
def build_command_line (prefixStr content : String) (type : CCTriggerType) :
    Except PyErr (String × List String) :=
  if type = .CCTriggerNone then .error .typeNone
  else if type ≠ .CCTriggerCommand then .ok (content, [])
  else
    match pySplit content with
    | [] => .error .indexError
    | f :: rest => .ok (removePre f prefixStr, if rest = [] then [] else rest)

/-- Model of `CCManager.build_require_block`. -/
def build_require_block (ctx : Message) : RequireBlock :=
  ⟨ctx.channel, ctx.category, ctx.authorRoles⟩

/-- Model of `CCManager.find_commands`: keep, in registry order, the
commands whose trigger and requirements are satisfied.  Any exception
raised while building a command line or checking a trigger propagates. -/
def find_commands (prefixStr : String) (cmds : List CustomCommand) (ctx : Message) :
    Except PyErr (List CustomCommand) :=
  match cmds with
  | [] => .ok []
  | c :: rest =>
      match build_command_line prefixStr ctx.content c.cmdtype with
      | .error e => .error e
      | .ok (cmd, _) =>
          match c.check_trigger cmd with
          | .error e => .error e
          | .ok t =>
              match find_commands prefixStr rest ctx with
              | .error e => .error e
              | .ok others =>
                  .ok (if t && c.check_requirements (build_require_block ctx)
                       then c :: others else others)

/-- Externally visible side effects of a dispatch pass. -/
inductive Event where
  | invoked : String → Event
  | deleted
deriving DecidableEq

/-- One command's contribution in `execute_all`: build its command line
and run its handler. -/
def actionResult (prefixStr : String) (ctx : Message) (c : CustomCommand) :
    Except PyErr Bool :=
  match build_command_line prefixStr ctx.content c.cmdtype with
  | .error e => .error e
  | .ok (cmd, args) => c.actions ctx cmd args

/-- Did the command's handler run to completion and return `True`? -/
def actionTrue (prefixStr : String) (ctx : Message) (c : CustomCommand) : Bool :=
  match actionResult prefixStr ctx c with
  | .ok b => b
  | .error _ => false

/-- The handler loop of `CCManager.execute_all`: invoke each command in
order, recording invocations; an exception stops the loop and
propagates; on normal completion the result is the aggregated deletion
flag (`delete` in the source). -/
def run_actions (prefixStr : String) (ctx : Message) :
    List CustomCommand → List Event × Except PyErr Bool
  | [] => ([], .ok false)
  | c :: rest =>
      match build_command_line prefixStr ctx.content c.cmdtype with
      | .error e => ([], .error e)
      | .ok (cmd, args) =>
          match c.actions ctx cmd args with
          | .error e => ([.invoked c.path], .error e)
          | .ok b =>
              match run_actions prefixStr ctx rest with
              | (evs, .error e) => (.invoked c.path :: evs, .error e)
              | (evs, .ok b') => (.invoked c.path :: evs, .ok (b || b'))

/-- Model of `CCManager.execute_all`: find the matching commands, run
their handlers in order, and delete the message once at the end if any
handler signalled deletion.  The first component is the event trace. -/
def execute_all (prefixStr : String) (cmds : List CustomCommand) (ctx : Message) :
    List Event × Except PyErr Unit :=
  match find_commands prefixStr cmds ctx with
  | .error e => ([], .error e)
  | .ok matched =>
      match run_actions prefixStr ctx matched with
      | (evs, .error e) => (evs, .error e)
      | (evs, .ok del) => (evs ++ (if del then [.deleted] else []), .ok ())

/-- The paths of the handlers invoked during a pass, in order. -/
def invokedOf (evs : List Event) : List String :=
  evs.filterMap (fun e => match e with | .invoked p => some p | .deleted => none)

/-- Model of `CCManager.no_such_action`. -/
def no_such_action : CCAction :=
  fun _ _ _ => .ok false

/-- Model of `CCManager.validate_command`: the three checks, in source
order; the third models `utils.did_except(re.compile, command.trigger)`
and is applied to every kind. -/
def validate_command (c : CustomCommand) : Bool :=
  if c.trigger = "" then false
  else if c.cmdtype = .CCTriggerNone then false
  else if (compilePattern c.trigger).isNone then false
  else true

/-- Validation as §4.4 of the spec words it: non-empty trigger, non-None
kind, and a compiling pattern only for the regex-bearing kinds. -/
def specValidate (c : CustomCommand) : Bool :=
  decide (c.trigger ≠ "") && decide (c.cmdtype ≠ .CCTriggerNone) &&
    (if c.cmdtype = .CCTriggerRegex ∨ c.cmdtype = .CCTriggerExact ∨
        c.cmdtype = .CCTriggerContains
     then (compilePattern c.trigger).isSome else true)

/-- The values a parsed YAML definition supplies after the `.get` calls
with their defaults in `load_command_library`. -/
structure YamlSpec where
  actions : String
  cmdtype : String
  require : List (String × List String)
  trigger : String

/-- One definition file found by the directory scan: its path and the
outcome of `yaml.load` on it (`.error` models a raised parse error). -/
structure CommandFile where
  path : String
  parsed : Except PyErr YamlSpec

/-- Model of `CCManager.load_cc_response`: an empty path binds the
no-op handler; otherwise the handler is resolved by the environment
`resolve` (importing and executing the referenced module), which may
raise. -/
def load_cc_response (resolve : String → Except PyErr CCAction) (path : String) :
    Except PyErr CCAction :=
  if path = "" then .ok no_such_action else resolve path

/-- The keys of the registry, in insertion order. -/
def regKeys (reg : List (String × CustomCommand)) : List String :=
  reg.map (fun kv => kv.1)

/-- One iteration of the scan loop in `load_command_library` over a
single file: skip already-registered paths, parse, resolve, validate,
and insert on success.  The second component records a raised
exception. -/
def load_one (resolve : String → Except PyErr CCAction)
    (reg : List (String × CustomCommand)) (f : CommandFile) :
    List (String × CustomCommand) × Except PyErr Unit :=
  if (regKeys reg).contains f.path then (reg, .ok ())
  else
    match f.parsed with
    | .error e => (reg, .error e)
    | .ok spec =>
        match load_cc_response resolve spec.actions with
        | .error e => (reg, .error e)
        | .ok act =>
            let cc : CustomCommand :=
              ⟨f.path, spec.trigger, CCTriggerType.from_string spec.cmdtype,
               spec.require, act⟩
            if validate_command cc then (reg ++ [(f.path, cc)], .ok ())
            else (reg, .ok ())

/-- Model of `CCManager.load_command_library`: fold the scan over the
files in traversal order; an exception raised on one file aborts the
loop (there is no handler around the loop body in the source). -/
def load_command_library (resolve : String → Except PyErr CCAction) :
    List CommandFile → List (String × CustomCommand) →
    List (String × CustomCommand) × Except PyErr Unit
  | [], reg => (reg, .ok ())
  | f :: fs, reg =>
      match load_one resolve reg f with
      | (reg₁, .ok _) => load_command_library resolve fs reg₁
      | (reg₁, .error e) => (reg₁, .error e)

/-!
Concrete data used to evaluate the model at specific inputs: handlers,
commands, messages and definition files.
-/

/-- A handler that returns `True` (requests deletion). -/
def actTrue : CCAction := fun _ _ _ => .ok true

/-- A handler that returns `False`. -/
def actFalse : CCAction := fun _ _ _ => .ok false

/-- A handler that raises. -/
def actBoom : CCAction := fun _ _ _ => .error (.handlerErr "boom")

/-- A `Command`-kind command whose handler raises. -/
def ccA : CustomCommand := ⟨"A", "go", .CCTriggerCommand, [], actBoom⟩

/-- A `Command`-kind command whose handler returns `True`. -/
def ccB : CustomCommand := ⟨"B", "go", .CCTriggerCommand, [], actTrue⟩

/-- A `Command`-kind command whose handler returns `False`. -/
def ccD : CustomCommand := ⟨"D", "go", .CCTriggerCommand, [], actFalse⟩

/-- A second `Command`-kind command whose handler returns `True`. -/
def ccE : CustomCommand := ⟨"E", "go", .CCTriggerCommand, [], actTrue⟩

/-- A raising command and a deleting command for the dispatch-order
scenario. -/
def ccA8 : CustomCommand := ⟨"A8", "go", .CCTriggerCommand, [], actBoom⟩

/-- Companion of `ccA8`, registered after it. -/
def ccB8 : CustomCommand := ⟨"B8", "go", .CCTriggerCommand, [], actTrue⟩

/-- A `Contains`-kind command whose trigger holds the metacharacter `.`. -/
def cc4 : CustomCommand := ⟨"C4", "a.c", .CCTriggerContains, [], actFalse⟩

/-- The regex that `re.compile` yields for the trigger of `cc4`. -/
def rC4 : Regex := (compilePattern (lowerStr "a.c")).getD .emp

/-- A `Command`-kind command with a lowercase trigger. -/
def cc5 : CustomCommand := ⟨"C5", "abc", .CCTriggerCommand, [], actFalse⟩

/-- A `Command`-kind command whose trigger is not a valid pattern. -/
def cc6 : CustomCommand := ⟨"C6", "(", .CCTriggerCommand, [], actFalse⟩

/-- A message that invokes the command `go` with prefix `!`. -/
def msgGo : Message := ⟨"!go", "general", "", []⟩

/-- A well-formed definition body: no handler path, `command` kind,
no requirements, trigger `hi`. -/
def specGood : YamlSpec := ⟨"", "command", [], "hi"⟩

/-- A definition file whose parse raises. -/
def fBad : CommandFile := ⟨"bad.yaml", .error .yamlError⟩

/-- A well-formed definition file. -/
def fGood : CommandFile := ⟨"good.yaml", .ok specGood⟩

/-- A well-formed definition file for the re-scan scenario. -/
def fG10 : CommandFile := ⟨"g10.yaml", .ok specGood⟩

/-- A resolution environment in which every import raises. -/
def resolve0 : String → Except PyErr CCAction := fun _ => .error .resolveError

/-- The registry produced by loading `fG10` into an empty registry. -/
def regTen : List (String × CustomCommand) :=
  [("g10.yaml", ⟨"g10.yaml", "hi", .CCTriggerCommand, [], no_such_action⟩)]

/-!
Correctness of the executable regex operations against the relational
semantics `Regex.Matches`.
-/

/-- Inversion for `cat`: a match splits into matches of the two parts. -/
theorem Regex.cat_elim {q : Regex} {x : List Char} (h : Regex.Matches q x) :
    ∀ r₁ r₂ : Regex, q = .cat r₁ r₂ →
      ∃ s₁ s₂, x = s₁ ++ s₂ ∧ Regex.Matches r₁ s₁ ∧ Regex.Matches r₂ s₂ := by
  induction h with
  | eps => intro r₁ r₂ hq; cases hq
  | char c => intro r₁ r₂ hq; cases hq
  | dot h => intro r₁ r₂ hq; cases hq
  | altL h ih => intro r₁ r₂ hq; cases hq
  | altR h ih => intro r₁ r₂ hq; cases hq
  | cat h₁ h₂ ih₁ ih₂ =>
      intro r₁ r₂ hq
      injection hq with e₁ e₂
      subst e₁; subst e₂
      exact ⟨_, _, rfl, h₁, h₂⟩
  | starEmpty => intro r₁ r₂ hq; cases hq
  | starCat h₁ h₂ ih₁ ih₂ => intro r₁ r₂ hq; cases hq

/-- The nullability test agrees with matching the empty list. -/
theorem Regex.nullable_iff (r : Regex) : r.nullable = true ↔ Regex.Matches r [] := by
  induction r with
  | emp =>
      simp only [nullable, Bool.false_eq_true, false_iff]
      intro h; cases h
  | eps =>
      simp only [nullable, true_iff]; exact .eps
  | char c =>
      simp only [nullable, Bool.false_eq_true, false_iff]
      intro h; cases h
  | dot =>
      simp only [nullable, Bool.false_eq_true, false_iff]
      intro h; cases h
  | alt r₁ r₂ ih₁ ih₂ =>
      simp only [nullable, Bool.or_eq_true, ih₁, ih₂]
      constructor
      · rintro (h | h)
        · exact .altL h
        · exact .altR h
      · intro h
        cases h with
        | altL h => exact Or.inl h
        | altR h => exact Or.inr h
  | cat r₁ r₂ ih₁ ih₂ =>
      simp only [nullable, Bool.and_eq_true, ih₁, ih₂]
      constructor
      · rintro ⟨h₁, h₂⟩; exact .cat h₁ h₂
      · intro h
        rcases Regex.cat_elim h r₁ r₂ rfl with ⟨s₁, s₂, heq, h₁, h₂⟩
        rcases List.append_eq_nil.mp heq.symm with ⟨e₁, e₂⟩
        subst e₁; subst e₂
        exact ⟨h₁, h₂⟩
  | star r ih =>
      simp only [nullable, true_iff]; exact .starEmpty

/-- Inversion for `star`: a nonempty match peels off a nonempty first
iteration. -/
theorem Regex.star_elim {q : Regex} {x : List Char} (h : Regex.Matches q x) :
    ∀ r : Regex, q = .star r →
      x = [] ∨ ∃ s₁ s₂, x = s₁ ++ s₂ ∧ s₁ ≠ [] ∧
        Regex.Matches r s₁ ∧ Regex.Matches (.star r) s₂ := by
  induction h with
  | eps => intro r hq; cases hq
  | char c => intro r hq; cases hq
  | dot h => intro r hq; cases hq
  | altL h ih => intro r hq; cases hq
  | altR h ih => intro r hq; cases hq
  | cat h₁ h₂ ih₁ ih₂ => intro r hq; cases hq
  | starEmpty => intro r hq; exact Or.inl rfl
  | starCat h₁ h₂ ih₁ ih₂ =>
      rename_i r₀ s₁ s₂
      intro r hq
      injection hq with hr
      subst hr
      by_cases hs : s₁ = []
      · subst hs
        simpa using ih₂ r₀ rfl
      · exact Or.inr ⟨s₁, s₂, rfl, hs, h₁, h₂⟩

/-- The Brzozowski derivative characterizes matching with one more
leading character. -/
theorem Regex.rderiv_iff (r : Regex) (a : Char) :
    ∀ s : List Char, Regex.Matches (r.rderiv a) s ↔ Regex.Matches r (a :: s) := by
  induction r with
  | emp =>
      intro s
      constructor <;> (intro h; cases h)
  | eps =>
      intro s
      constructor <;> (intro h; cases h)
  | char c =>
      intro s
      simp only [rderiv]
      split
      · rename_i h; subst h
        constructor
        · intro h'; cases h'; exact .char a
        · intro h'; cases h'; exact .eps
      · rename_i h
        constructor
        · intro h'; cases h'
        · intro h'; cases h'; exact absurd rfl h
  | dot =>
      intro s
      simp only [rderiv]
      split
      · rename_i h; subst h
        constructor
        · intro h'; cases h'
        · intro h'
          cases h' with
          | dot hne => exact absurd rfl hne
      · rename_i h
        constructor
        · intro h'; cases h'; exact .dot h
        · intro h'; cases h'; exact .eps
  | alt r₁ r₂ ih₁ ih₂ =>
      intro s
      simp only [rderiv]
      constructor
      · intro h
        cases h with
        | altL h => exact .altL ((ih₁ s).mp h)
        | altR h => exact .altR ((ih₂ s).mp h)
      · intro h
        cases h with
        | altL h => exact .altL ((ih₁ s).mpr h)
        | altR h => exact .altR ((ih₂ s).mpr h)
  | cat r₁ r₂ ih₁ ih₂ =>
      intro s
      simp only [rderiv]
      split
      · rename_i hn
        constructor
        · intro h
          cases h with
          | altL h =>
              cases h with
              | cat h₁ h₂ => exact .cat ((ih₁ _).mp h₁) h₂
          | altR h =>
              exact .cat ((nullable_iff r₁).mp hn) ((ih₂ s).mp h)
        · intro h
          rcases Regex.cat_elim h r₁ r₂ rfl with ⟨s₁, s₂, heq, h₁, h₂⟩
          cases s₁ with
          | nil =>
              simp only [List.nil_append] at heq
              subst heq
              exact .altR ((ih₂ s).mpr h₂)
          | cons b t =>
              simp only [List.cons_append, List.cons.injEq] at heq
              rcases heq with ⟨hab, hs⟩
              subst hab
              subst hs
              exact .altL (.cat ((ih₁ t).mpr h₁) h₂)
      · rename_i hn
        constructor
        · intro h
          cases h with
          | cat h₁ h₂ => exact .cat ((ih₁ _).mp h₁) h₂
        · intro h
          rcases Regex.cat_elim h r₁ r₂ rfl with ⟨s₁, s₂, heq, h₁, h₂⟩
          cases s₁ with
          | nil =>
              exact absurd ((nullable_iff r₁).mpr h₁) (by simpa using hn)
          | cons b t =>
              simp only [List.cons_append, List.cons.injEq] at heq
              rcases heq with ⟨hab, hs⟩
              subst hab
              subst hs
              exact .cat ((ih₁ t).mpr h₁) h₂
  | star r ih =>
      intro s
      simp only [rderiv]
      constructor
      · intro h
        cases h with
        | cat h₁ h₂ => exact .starCat ((ih _).mp h₁) h₂
      · intro h
        rcases Regex.star_elim h r rfl with hnil | ⟨s₁, s₂, heq, hne, h₁, h₂⟩
        · cases hnil
        · cases s₁ with
          | nil => exact absurd rfl hne
          | cons b t =>
              simp only [List.cons_append, List.cons.injEq] at heq
              rcases heq with ⟨hab, hs⟩
              subst hab
              subst hs
              exact .cat ((ih t).mpr h₁) h₂

/-- The full-string matcher decides the relational semantics. -/
theorem Regex.rmatch_iff (r : Regex) (s : List Char) :
    r.rmatch s = true ↔ Regex.Matches r s := by
  induction s generalizing r with
  | nil => simpa [rmatch] using r.nullable_iff
  | cons a t ih =>
      simp only [rmatch]
      rw [ih]
      exact r.rderiv_iff a t

/-- The anchored matcher accepts exactly when some prefix matches
(semantics of Python `re.match`). -/
theorem Regex.mpre_iff (r : Regex) (s : List Char) :
    r.mpre s = true ↔ ∃ p q, s = p ++ q ∧ Regex.Matches r p := by
  induction s generalizing r with
  | nil =>
      simp only [mpre]
      rw [nullable_iff]
      constructor
      · intro h; exact ⟨[], [], rfl, h⟩
      · rintro ⟨p, q, hpq, hm⟩
        rcases List.append_eq_nil.mp hpq.symm with ⟨e₁, e₂⟩
        subst e₁
        exact hm
  | cons a t ih =>
      simp only [mpre, Bool.or_eq_true]
      rw [nullable_iff, ih]
      constructor
      · rintro (h | ⟨p, q, hpq, hm⟩)
        · exact ⟨[], a :: t, rfl, h⟩
        · exact ⟨a :: p, q, by rw [hpq]; rfl, (r.rderiv_iff a p).mp hm⟩
      · rintro ⟨p, q, hpq, hm⟩
        cases p with
        | nil =>
            exact Or.inl hm
        | cons b p' =>
            simp only [List.cons_append, List.cons.injEq] at hpq
            rcases hpq with ⟨hab, ht⟩
            subst hab
            exact Or.inr ⟨p', q, ht, (r.rderiv_iff a p').mpr hm⟩

/-- The unanchored search accepts exactly when the regex matches some
contiguous segment (semantics of Python `re.search`). -/
theorem Regex.rsearch_iff (r : Regex) (s : List Char) :
    r.rsearch s = true ↔
      ∃ pre mid post, s = pre ++ mid ++ post ∧ Regex.Matches r mid := by
  induction s with
  | nil =>
      simp only [rsearch]
      rw [nullable_iff]
      constructor
      · intro h; exact ⟨[], [], [], rfl, h⟩
      · rintro ⟨pre, mid, post, hp, hm⟩
        rcases List.append_eq_nil.mp hp.symm with ⟨h₁, h₂⟩
        rcases List.append_eq_nil.mp h₁ with ⟨h₃, h₄⟩
        subst h₄
        exact hm
  | cons a t ih =>
      simp only [rsearch, Bool.or_eq_true]
      rw [mpre_iff, ih]
      constructor
      · rintro (⟨p, q, hpq, hm⟩ | ⟨pre, mid, post, hp, hm⟩)
        · exact ⟨[], p, q, by simpa using hpq, hm⟩
        · exact ⟨a :: pre, mid, post, by rw [hp]; rfl, hm⟩
      · rintro ⟨pre, mid, post, hp, hm⟩
        cases pre with
        | nil =>
            exact Or.inl ⟨mid, post, by simpa using hp, hm⟩
        | cons b pre' =>
            simp only [List.cons_append, List.cons.injEq] at hp
            rcases hp with ⟨hab, ht⟩
            subst hab
            exact Or.inr ⟨pre', mid, post, ht, hm⟩

/-- Characterization of the executable prefix test. -/
theorem listHasPre_iff (p l : List Char) :
    listHasPre p l = true ↔ ∃ t, l = p ++ t := by
  induction p generalizing l with
  | nil =>
      simp [listHasPre]
  | cons a p ih =>
      cases l with
      | nil =>
          simp [listHasPre]
      | cons b l' =>
          simp only [listHasPre, Bool.and_eq_true, decide_eq_true_eq, ih,
            List.cons_append, List.cons.injEq]
          constructor
          · rintro ⟨rfl, t, rfl⟩
            exact ⟨t, rfl, rfl⟩
          · rintro ⟨t, h₁, h₂⟩
            exact ⟨h₁.symm, t, h₂⟩

/-- Characterization of the executable substring test. -/
theorem listHasSub_iff (n l : List Char) :
    listHasSub n l = true ↔ ∃ pre post, l = pre ++ n ++ post := by
  induction l with
  | nil =>
      simp only [listHasSub]
      rw [listHasPre_iff]
      constructor
      · rintro ⟨t, ht⟩
        exact ⟨[], t, by simpa using ht⟩
      · rintro ⟨pre, post, h⟩
        rcases List.append_eq_nil.mp h.symm with ⟨h₁, h₂⟩
        rcases List.append_eq_nil.mp h₁ with ⟨h₃, h₄⟩
        subst h₄
        exact ⟨post, by simpa using h₂.symm⟩
  | cons b l' ih =>
      simp only [listHasSub, Bool.or_eq_true]
      rw [listHasPre_iff, ih]
      constructor
      · rintro (⟨t, ht⟩ | ⟨pre, post, hp⟩)
        · exact ⟨[], t, by simpa using ht⟩
        · exact ⟨b :: pre, post, by rw [hp]; rfl⟩
      · rintro ⟨pre, post, hp⟩
        cases pre with
        | nil =>
            exact Or.inl ⟨post, by simpa using hp⟩
        | cons c pre' =>
            simp only [List.cons_append, List.cons.injEq] at hp
            rcases hp with ⟨hbc, ht⟩
            subst hbc
            exact Or.inr ⟨pre', post, ht⟩

/-- Splitting a list of Python whitespace yields no fragments. -/
theorem splitWsAux_all_space (l : List Char) (h : ∀ c ∈ l, isPySpace c = true) :
    splitWsAux l [] = [] := by
  induction l with
  | nil => rfl
  | cons c t ih =>
      have hc : isPySpace c = true := h c (by simp)
      simp only [splitWsAux, hc, if_true]
      simpa using ih (fun d hd => h d (by simp [hd]))

/-!
Behaviour of the dispatch pipeline.
-/

/-- A successful find built a command line for every registry entry. -/
theorem find_ok_build (p : String) (ctx : Message) :
    ∀ (cmds matched : List CustomCommand),
      find_commands p cmds ctx = .ok matched →
      ∀ c ∈ cmds, ∃ pr, build_command_line p ctx.content c.cmdtype = .ok pr := by
  intro cmds
  induction cmds with
  | nil => intro matched h c hc; cases hc
  | cons d rest ih =>
      intro matched h c hc
      unfold find_commands at h
      rcases hbuild : build_command_line p ctx.content d.cmdtype with e | pr
      · simp [hbuild] at h
      · obtain ⟨cmd, args⟩ := pr
        simp only [hbuild] at h
        rcases hchk : d.check_trigger cmd with e | t
        · simp [hchk] at h
        · simp only [hchk] at h
          rcases hrest : find_commands p rest ctx with e | others
          · simp [hrest] at h
          · rcases List.mem_cons.mp hc with hceq | hcm
            · exact ⟨(cmd, args), by rw [hceq]; exact hbuild⟩
            · exact ih others hrest c hcm

/-- Every command a successful find returns is in the registry. -/
theorem find_ok_sub (p : String) (ctx : Message) :
    ∀ (cmds matched : List CustomCommand),
      find_commands p cmds ctx = .ok matched →
      ∀ c ∈ matched, c ∈ cmds := by
  intro cmds
  induction cmds with
  | nil =>
      intro matched h c hc
      unfold find_commands at h
      injection h with h
      rw [← h] at hc
      cases hc
  | cons d rest ih =>
      intro matched h c hc
      unfold find_commands at h
      rcases hbuild : build_command_line p ctx.content d.cmdtype with e | pr
      · simp [hbuild] at h
      · obtain ⟨cmd, args⟩ := pr
        simp only [hbuild] at h
        rcases hchk : d.check_trigger cmd with e | t
        · simp [hchk] at h
        · simp only [hchk] at h
          rcases hrest : find_commands p rest ctx with e | others
          · simp [hrest] at h
          · simp only [hrest] at h
            injection h with h
            rw [← h] at hc
            by_cases hk : (t && d.check_requirements (build_require_block ctx)) = true
            · rw [if_pos hk] at hc
              rcases List.mem_cons.mp hc with hceq | hcm
              · rw [hceq]; exact List.mem_cons_self d rest
              · exact List.mem_cons_of_mem d (ih others hrest c hcm)
            · rw [if_neg hk] at hc
              exact List.mem_cons_of_mem d (ih others hrest c hc)

/-- When every matched handler settles normally, the handler loop
invokes all of them in order and aggregates their signals with `or`. -/
theorem run_actions_ok (p : String) (ctx : Message) :
    ∀ l : List CustomCommand,
      (∀ c ∈ l, ∃ b, actionResult p ctx c = .ok b) →
      run_actions p ctx l =
        (l.map (fun d => Event.invoked d.path), .ok (l.any (actionTrue p ctx))) := by
  intro l
  induction l with
  | nil => intro h; rfl
  | cons c rest ih =>
      intro h
      obtain ⟨b, hb⟩ := h c (List.mem_cons_self c rest)
      have hrest := ih (fun d hd => h d (List.mem_cons_of_mem c hd))
      have hbAR := hb
      unfold actionResult at hb
      rcases hbuild : build_command_line p ctx.content c.cmdtype with e | pr
      · simp only [hbuild] at hb
        exact Except.noConfusion hb
      · obtain ⟨cmd, args⟩ := pr
        simp only [hbuild] at hb
        have ht : actionTrue p ctx c = b := by
          unfold actionTrue
          rw [hbAR]
        unfold run_actions
        simp only [hbuild, hb, hrest]
        simp [ht]

/-- A handler exception aborts the loop right after the failing
handler's invocation. -/
theorem run_actions_abort (p : String) (ctx : Message)
    (l₂ : List CustomCommand) (c : CustomCommand) (e : PyErr) :
    ∀ l₁ : List CustomCommand,
      (∀ d ∈ l₁, ∃ b, actionResult p ctx d = .ok b) →
      actionResult p ctx c = .error e →
      (∃ pr, build_command_line p ctx.content c.cmdtype = .ok pr) →
      run_actions p ctx (l₁ ++ c :: l₂) =
        (l₁.map (fun d => Event.invoked d.path) ++ [Event.invoked c.path], .error e) := by
  intro l₁
  induction l₁ with
  | nil =>
      intro _ hc hcb
      obtain ⟨pr, hpr⟩ := hcb
      obtain ⟨cmd, args⟩ := pr
      unfold actionResult at hc
      simp only [hpr] at hc
      rw [List.nil_append]
      unfold run_actions
      simp only [hpr, hc]
      simp
  | cons d rest ih =>
      intro h₁ hc hcb
      obtain ⟨b, hb⟩ := h₁ d (List.mem_cons_self d rest)
      have hrest := ih (fun x hx => h₁ x (List.mem_cons_of_mem d hx)) hc hcb
      unfold actionResult at hb
      rcases hbuild : build_command_line p ctx.content d.cmdtype with e' | pr
      · simp only [hbuild] at hb
        exact Except.noConfusion hb
      · obtain ⟨cmd, args⟩ := pr
        simp only [hbuild] at hb
        show run_actions p ctx (d :: (rest ++ c :: l₂)) = _
        unfold run_actions
        simp only [hbuild, hb, hrest]
        simp

/-- The handlers invoked by the loop are always an initial segment of
the commands given to it, in order. -/
theorem run_invoked_take (p : String) (ctx : Message) :
    ∀ l : List CustomCommand, ∃ n,
      invokedOf (run_actions p ctx l).1 = (l.map CustomCommand.path).take n := by
  intro l
  induction l with
  | nil => exact ⟨0, rfl⟩
  | cons c rest ih =>
      obtain ⟨n, hn⟩ := ih
      unfold run_actions
      rcases hbuild : build_command_line p ctx.content c.cmdtype with e | pr
      · exact ⟨0, by simp [invokedOf]⟩
      · obtain ⟨cmd, args⟩ := pr
        rcases hact : c.actions ctx cmd args with e | b
        · exact ⟨1, by simp [hact, invokedOf]⟩
        · rcases hrun : run_actions p ctx rest with ⟨evs, res⟩
          rw [hrun] at hn
          rcases res with e | b'
          · refine ⟨n + 1, ?_⟩
            simp only [hact, hrun, List.map_cons, List.take_succ_cons]
            simpa [invokedOf] using hn
          · refine ⟨n + 1, ?_⟩
            simp only [hact, hrun, List.map_cons, List.take_succ_cons]
            simpa [invokedOf] using hn

/-- Splitting `invokedOf` over an appended trace. -/
theorem invokedOf_append (a b : List Event) :
    invokedOf (a ++ b) = invokedOf a ++ invokedOf b := by
  unfold invokedOf
  exact List.filterMap_append a b _

/-- Invocation paths of a pure invocation trace. -/
theorem invokedOf_map (l : List CustomCommand) :
    invokedOf (l.map (fun d => Event.invoked d.path)) = l.map CustomCommand.path := by
  induction l with
  | nil => rfl
  | cons c rest ih =>
      simp only [List.map_cons, invokedOf, List.filterMap_cons] at ih ⊢
      rw [ih]

/-- Bridge between the boolean `contains` and list membership. -/
theorem containsStr (l : List String) (a : String) : l.contains a = true ↔ a ∈ l := by
  simp

/-!
Behaviour of the loader.
-/

/-- Complete case analysis of one loader step: it raises (and would
raise again from any registry not containing the path), succeeds
without change (either a skip, or a reproducible validation failure),
or appends the new command. -/
theorem load_one_cases (resolve : String → Except PyErr CCAction)
    (reg : List (String × CustomCommand)) (f : CommandFile) :
    (∃ e, load_one resolve reg f = (reg, .error e) ∧
        ∀ reg₂, (regKeys reg₂).contains f.path = false →
          load_one resolve reg₂ f = (reg₂, .error e)) ∨
    (load_one resolve reg f = (reg, .ok ()) ∧
        ((regKeys reg).contains f.path = true ∨
         ∀ reg₂, (regKeys reg₂).contains f.path = false →
           load_one resolve reg₂ f = (reg₂, .ok ()))) ∨
    (∃ cc, load_one resolve reg f = (reg ++ [(f.path, cc)], .ok ()) ∧
        (regKeys reg).contains f.path = false) := by
  by_cases hp : (regKeys reg).contains f.path = true
  · right; left
    have hpm : f.path ∈ regKeys reg := (containsStr _ _).mp hp
    exact ⟨by unfold load_one; simp [hpm], Or.inl hp⟩
  · have hpm : f.path ∉ regKeys reg := fun hm => hp ((containsStr _ _).mpr hm)
    rcases hpar : f.parsed with e₁ | spec
    · left
      refine ⟨e₁, by unfold load_one; simp [hpm, hpar], fun reg₂ h₂ => ?_⟩
      have h₂m : f.path ∉ regKeys reg₂ := fun hm => by
        rw [(containsStr _ _).mpr hm] at h₂
        exact Bool.noConfusion h₂
      unfold load_one
      simp [h₂m, hpar]
    · rcases hres : load_cc_response resolve spec.actions with e₂ | act
      · left
        refine ⟨e₂, by unfold load_one; simp [hpm, hpar, hres], fun reg₂ h₂ => ?_⟩
        have h₂m : f.path ∉ regKeys reg₂ := fun hm => by
          rw [(containsStr _ _).mpr hm] at h₂
          exact Bool.noConfusion h₂
        unfold load_one
        simp [h₂m, hpar, hres]
      · by_cases hv : validate_command ⟨f.path, spec.trigger,
            CCTriggerType.from_string spec.cmdtype, spec.require, act⟩ = true
        · right; right
          exact ⟨⟨f.path, spec.trigger, CCTriggerType.from_string spec.cmdtype,
              spec.require, act⟩,
            by unfold load_one; simp [hpm, hpar, hres, hv], by simpa using hp⟩
        · right; left
          refine ⟨by unfold load_one; simp [hpm, hpar, hres, hv],
            Or.inr (fun reg₂ h₂ => ?_)⟩
          have h₂m : f.path ∉ regKeys reg₂ := fun hm => by
            rw [(containsStr _ _).mpr hm] at h₂
            exact Bool.noConfusion h₂
          unfold load_one
          simp [h₂m, hpar, hres, hv]

/-- Keys already present survive any further loading. -/
theorem load_keys_mono (resolve : String → Except PyErr CCAction) :
    ∀ (fs : List CommandFile) (reg : List (String × CustomCommand)) (k : String),
      k ∈ regKeys reg → k ∈ regKeys (load_command_library resolve fs reg).1 := by
  intro fs
  induction fs with
  | nil => intro reg k hk; exact hk
  | cons f fs ih =>
      intro reg k hk
      unfold load_command_library
      rcases load_one_cases resolve reg f with ⟨e, heq, _⟩ | ⟨heq, _⟩ | ⟨cc, heq, _⟩ <;>
        simp only [heq]
      · exact hk
      · exact ih reg k hk
      · refine ih _ k ?_
        simp only [regKeys, List.map_append] at hk ⊢
        exact List.mem_append_left _ hk

/-- Loading never duplicates a registry key. -/
theorem load_keys_nodup (resolve : String → Except PyErr CCAction) :
    ∀ (fs : List CommandFile) (reg : List (String × CustomCommand)),
      (regKeys reg).Nodup → (regKeys (load_command_library resolve fs reg).1).Nodup := by
  intro fs
  induction fs with
  | nil => intro reg h; exact h
  | cons f fs ih =>
      intro reg h
      unfold load_command_library
      rcases load_one_cases resolve reg f with ⟨e, heq, _⟩ | ⟨heq, _⟩ | ⟨cc, heq, hni⟩ <;>
        simp only [heq]
      · exact h
      · exact ih reg h
      · refine ih _ ?_
        have hnm : f.path ∉ regKeys reg := by
          intro hmem
          rw [(containsStr _ _).mpr hmem] at hni
          cases hni
        simp only [regKeys, List.map_append] at h ⊢
        refine List.Nodup.append h (by simp) ?_
        intro a ha hb
        simp only [List.map_cons, List.map_nil, List.mem_singleton] at hb
        subst hb
        exact hnm ha

/-- One step of the loader from an already-registered path is a skip. -/
theorem load_one_skip (resolve : String → Except PyErr CCAction)
    (reg : List (String × CustomCommand)) (f : CommandFile)
    (h : (regKeys reg).contains f.path = true) :
    load_one resolve reg f = (reg, .ok ()) := by
  unfold load_one
  simp [(containsStr _ _).mp h]

/-- Re-running the loader over the same files from its own output
reproduces that output: the fold is idempotent. -/
theorem load_twice (resolve : String → Except PyErr CCAction) :
    ∀ (fs : List CommandFile) (reg reg' : List (String × CustomCommand))
      (res : Except PyErr Unit),
      load_command_library resolve fs reg = (reg', res) →
      load_command_library resolve fs reg' = (reg', res) := by
  intro fs
  induction fs with
  | nil =>
      intro reg reg' res h
      unfold load_command_library at h
      injection h with h₁ h₂
      subst h₁; subst h₂
      rfl
  | cons f fs ih =>
      intro reg reg' res h
      unfold load_command_library at h
      rcases load_one_cases resolve reg f with ⟨e, heq, hgen⟩ | ⟨heq, hok⟩ | ⟨cc, heq, hni⟩
      · rw [heq] at h
        simp only at h
        injection h with h₁ h₂
        subst h₁; subst h₂
        unfold load_command_library
        rw [heq]
      · rw [heq] at h
        simp only at h
        have h2 := ih reg reg' res h
        have hstep : load_one resolve reg' f = (reg', .ok ()) := by
          rcases hok with hin | hgen
          · have hmem : f.path ∈ regKeys reg' := by
              have hmono := load_keys_mono resolve fs reg f.path ((containsStr _ _).mp hin)
              rw [h] at hmono
              exact hmono
            exact load_one_skip resolve reg' f ((containsStr _ _).mpr hmem)
          · by_cases hp : (regKeys reg').contains f.path = true
            · exact load_one_skip resolve reg' f hp
            · exact hgen reg' (by simpa using hp)
        unfold load_command_library
        rw [hstep]
        exact h2
      · rw [heq] at h
        simp only at h
        have h2 := ih _ reg' res h
        have hmem : f.path ∈ regKeys reg' := by
          have hmono := load_keys_mono resolve fs (reg ++ [(f.path, cc)]) f.path ?_
          · rw [h] at hmono
            exact hmono
          · simp [regKeys]
        have hstep : load_one resolve reg' f = (reg', .ok ()) :=
          load_one_skip resolve reg' f ((containsStr _ _).mpr hmem)
        unfold load_command_library
        rw [hstep]
        exact h2

/-!
Sanity evaluations of the string and pattern models on the inputs of
the spec's own examples.
-/

/-- The pattern model accepts `a.c` and rejects the unbalanced `(`. -/
theorem compilePattern_eval :
    (compilePattern "a.c").isSome = true ∧ compilePattern "(" = none := by
  exact ⟨by decide, by decide⟩

/-- Repetition handling of the pattern model agrees with `re.compile`
and `re.search` on the delicate inputs: a stacked repeater such as
`a**` or `a?*` is a compile error ("multiple repeat"), while the lazy
`a+?` compiles and, like Python's, finds no match in `b` but one in
`xa`. -/
theorem parseReps_eval :
    compilePattern "a**" = none ∧ compilePattern "a?*" = none ∧
    compilePattern "a*??" = none ∧
    (compilePattern "a+?").isSome = true ∧
    ((compilePattern "a+?").getD .emp).rsearch "b".data = false ∧
    ((compilePattern "a+?").getD .emp).rsearch "xa".data = true := by
  refine ⟨by decide, by decide, by decide, by decide, by decide, by decide⟩

/-- The split model reproduces Python `split` on the spec's example. -/
theorem pySplit_eval :
    pySplit "  " = [] ∧ pySplit "!ping foo  bar" = ["!ping", "foo", "bar"] ∧
    removePre "!ping" "!" = "ping" := by
  exact ⟨by decide, by decide, by decide⟩

/-!
Claim theorems.
-/

/-- C3, counterexample: on empty (and on whitespace-only) content,
building the command line with kind `Command` does not return an empty
command line and empty arguments — it raises `IndexError`
(`fragments[0]` on an empty fragment list in `build_command_line`). -/
theorem C3_counterexample :
    build_command_line "!" "" .CCTriggerCommand = .error .indexError ∧
    build_command_line "!" " " .CCTriggerCommand = .error .indexError ∧
    build_command_line "!" "" .CCTriggerCommand ≠ .ok ("", []) := by
  refine ⟨rfl, rfl, ?_⟩
  intro h
  exact Except.noConfusion h

/-- C3 (corrected): for every content string consisting only of
whitespace (including the empty string), building the command line with
kind `Command` raises `IndexError` instead of returning an empty
command line. -/
theorem C3_amended (p content : String)
    (h : content.data.all isPySpace = true) :
    build_command_line p content .CCTriggerCommand = .error .indexError := by
  have hsplit : pySplit content = [] := by
    unfold pySplit
    rw [splitWsAux_all_space]
    · rfl
    · intro c hc
      exact List.all_eq_true.mp h c hc
  unfold build_command_line
  rw [hsplit]
  simp

/-- C3 witness: the amended claim evaluated on a whitespace-only
message and on the empty message. -/
theorem C3_amended_witness :
    build_command_line "!" " \t " .CCTriggerCommand = .error .indexError ∧
    build_command_line "!" "" .CCTriggerCommand ≠ .ok ("", []) := by
  refine ⟨C3_amended "!" " \t " (by decide), ?_⟩
  intro h
  exact Except.noConfusion h

/-- C4, counterexample: a `Contains` trigger is interpreted as a regex
pattern, not as plain text.  The trigger `a.c` matches the command line
`abc` although `a.c` is not a literal substring of it (case
insensitively or otherwise). -/
theorem C4_counterexample :
    cc4.check_trigger "abc" = .ok true ∧ ¬ SubstrCI cc4.trigger "abc" := by
  constructor
  · rfl
  · intro hsub
    rcases hsub with ⟨pre, post, hdecomp⟩
    have hb : listHasSub (lowerStr cc4.trigger).data (lowerStr "abc").data = true :=
      (listHasSub_iff _ _).mpr ⟨pre, post, hdecomp⟩
    exact absurd hb (by decide)

/-- C4 (corrected): for a `Contains`-kind command whose lowercased
trigger compiles, the trigger check succeeds exactly when the compiled
pattern matches some contiguous segment of the lowercased command line
(an unanchored, case-insensitive regex search — not a literal substring
test). -/
theorem C4_amended (c : CustomCommand) (cmd : String) (r : Regex)
    (hk : c.cmdtype = .CCTriggerContains)
    (hr : compilePattern (lowerStr c.trigger) = some r) :
    c.check_trigger cmd = .ok true ↔
      ∃ pre mid post, (lowerStr cmd).data = pre ++ mid ++ post ∧
        Regex.Matches r mid := by
  unfold CustomCommand.check_trigger
  rw [hk]
  simp only [hr, Except.ok.injEq]
  exact r.rsearch_iff (lowerStr cmd).data

/-- C4 witness: the amended claim evaluated at the `a.c` trigger and
the command line `abc`. -/
theorem C4_amended_witness :
    cc4.check_trigger "abc" = .ok true ↔
      ∃ pre mid post, (lowerStr "abc").data = pre ++ mid ++ post ∧
        Regex.Matches rC4 mid :=
  C4_amended cc4 "abc" rC4 rfl (by decide)

/-- C5, counterexample: the `Command` trigger check is not exact string
equality: the command line is lowercased first, so trigger `abc`
accepts the command line `ABC` although the two strings differ. -/
theorem C5_counterexample :
    cc5.check_trigger "ABC" = .ok true ∧ cc5.trigger ≠ "ABC" := by
  exact ⟨rfl, by decide⟩

/-- C5 (corrected): for a `Command`-kind command, the trigger check
succeeds exactly when the trigger equals the lowercased command line
(the trigger itself is compared verbatim; only the command line is
case-normalized). -/
theorem C5_amended (c : CustomCommand) (cmd : String)
    (hk : c.cmdtype = .CCTriggerCommand) :
    c.check_trigger cmd = .ok true ↔ c.trigger = lowerStr cmd := by
  unfold CustomCommand.check_trigger
  rw [hk]
  simp only [Except.ok.injEq, beq_iff_eq]

/-- C5 witness: the amended claim evaluated at trigger `abc` and
command line `ABC`. -/
theorem C5_amended_witness :
    cc5.check_trigger "ABC" = .ok true ↔ cc5.trigger = lowerStr "ABC" :=
  C5_amended cc5 "ABC" rfl

/-- C6, counterexample: validation applies the pattern-compilation
check to every kind, including `Command`: a `Command`-kind definition
with the non-compiling trigger `(` is rejected by the code although the
spec's validation rules accept it. -/
theorem C6_counterexample :
    validate_command cc6 = false ∧ specValidate cc6 = true ∧
    cc6.cmdtype = .CCTriggerCommand := ⟨rfl, rfl, rfl⟩

/-- C6 (corrected): validation passes exactly when the trigger is
non-empty, the kind is not `None`, and the trigger compiles as a
pattern — the compilation requirement applies to all kinds, so a
`Command`-kind definition with a non-compiling trigger is also
disqualified. -/
theorem C6_amended (c : CustomCommand) :
    validate_command c = true ↔
      (c.trigger ≠ "" ∧ c.cmdtype ≠ .CCTriggerNone ∧
        (compilePattern c.trigger).isSome = true) := by
  unfold validate_command
  split_ifs with h₁ h₂ h₃
  · simp [h₁]
  · simp [h₂]
  · simp [h₁, h₂, Option.isNone_iff_eq_none.mp h₃]
  · constructor
    · intro _
      refine ⟨h₁, h₂, ?_⟩
      cases hc : compilePattern c.trigger with
      | none => rw [hc] at h₃; simp at h₃
      | some r => simp
    · intro _
      rfl

/-- C9 (confirmed): the requirement check is the conjunction of three
independent predicates — channel (no `channels` key, or the context
channel is listed), category (no `categories` key, or the context
category is listed), and role (no `roles` key, or the required roles
intersect the invoker's roles) — and a command with no requirement
bundle matches every context. -/
theorem C9_thm (c : CustomCommand) (rb : RequireBlock) :
    (c.check_requirements rb = true ↔
      ((lookupReq c.require "channels" = none ∨
          ∃ l, lookupReq c.require "channels" = some l ∧ rb.channel ∈ l) ∧
       (lookupReq c.require "categories" = none ∨
          ∃ l, lookupReq c.require "categories" = some l ∧ rb.category ∈ l) ∧
       (lookupReq c.require "roles" = none ∨
          ∃ l, lookupReq c.require "roles" = some l ∧ ∃ r ∈ rb.roles, r ∈ l))) ∧
    (c.require = [] → c.check_requirements rb = true) := by
  constructor
  · unfold CustomCommand.check_requirements CustomCommand.require_channel
      CustomCommand.require_category CustomCommand.require_a_role
    rcases h₁ : lookupReq c.require "channels" with _ | l₁ <;>
      rcases h₂ : lookupReq c.require "categories" with _ | l₂ <;>
        rcases h₃ : lookupReq c.require "roles" with _ | l₃ <;>
          simp [h₁, h₂, h₃, List.any_eq_true, and_assoc]
  · intro h
    unfold CustomCommand.check_requirements CustomCommand.require_channel
      CustomCommand.require_category CustomCommand.require_a_role lookupReq
    simp [h]

/-- C7 (confirmed): when the trigger scan succeeds and every matched
handler settles normally, the dispatch pass invokes all matched
handlers and then deletes the message exactly once — after all of them
and only if some handler returned `True`; with no `True` signal there
is no deletion event. -/
theorem C7_thm (p : String) (cmds : List CustomCommand) (ctx : Message)
    (matched : List CustomCommand)
    (hf : find_commands p cmds ctx = .ok matched)
    (h : ∀ c ∈ matched, ∃ b, actionResult p ctx c = .ok b) :
    execute_all p cmds ctx =
      (matched.map (fun d => Event.invoked d.path) ++
        (if matched.any (actionTrue p ctx) then [Event.deleted] else []),
       .ok ()) := by
  unfold execute_all
  simp only [hf, run_actions_ok p ctx matched h]

/-- C7 witness: a pass with one `False` handler and one `True` handler
invokes both and then deletes once. -/
theorem C7_witness :
    execute_all "!" [ccD, ccE] msgGo =
      ([Event.invoked "D", Event.invoked "E", Event.deleted], .ok ()) := by
  have h : ∀ c ∈ [ccD, ccE], ∃ b, actionResult "!" msgGo c = .ok b := by
    intro c hc
    simp only [List.mem_cons, List.not_mem_nil, or_false] at hc
    rcases hc with rfl | rfl
    · exact ⟨false, rfl⟩
    · exact ⟨true, rfl⟩
  exact C7_thm "!" [ccD, ccE] msgGo [ccD, ccE] rfl h

/-- C1, counterexample: both commands match, but when the first
handler raises, the second handler is never invoked, nothing is
logged-and-continued, and no aggregate decision is taken — the
exception simply propagates out of the pass. -/
theorem C1_counterexample :
    find_commands "!" [ccA, ccB] msgGo = .ok [ccA, ccB] ∧
    execute_all "!" [ccA, ccB] msgGo =
      ([Event.invoked "A"], .error (.handlerErr "boom")) ∧
    Event.invoked "B" ∉ (execute_all "!" [ccA, ccB] msgGo).1 := by
  refine ⟨rfl, rfl, ?_⟩
  decide

/-- C1 (corrected): if a matched handler raises, the dispatch pass ends
with that exception: the handlers before it ran, the failing handler's
invocation is the last event, the handlers after it are not invoked,
and the message is not deleted. -/
theorem C1_amended (p : String) (cmds : List CustomCommand) (ctx : Message)
    (matched l₁ l₂ : List CustomCommand) (c : CustomCommand) (e : PyErr)
    (hf : find_commands p cmds ctx = .ok matched)
    (hm : matched = l₁ ++ c :: l₂)
    (h₁ : ∀ d ∈ l₁, ∃ b, actionResult p ctx d = .ok b)
    (hc : actionResult p ctx c = .error e) :
    execute_all p cmds ctx =
      (l₁.map (fun d => Event.invoked d.path) ++ [Event.invoked c.path],
       .error e) := by
  have hcmem : c ∈ cmds :=
    find_ok_sub p ctx cmds matched hf c
      (by rw [hm]; exact List.mem_append_right _ (List.mem_cons_self c l₂))
  have hcb := find_ok_build p ctx cmds matched hf c hcmem
  unfold execute_all
  simp only [hf, hm, run_actions_abort p ctx l₂ c e l₁ h₁ hc hcb]

/-- C1 witness: the amended claim evaluated at a two-command registry
whose first matched handler raises. -/
theorem C1_amended_witness :
    execute_all "!" [ccA, ccB] msgGo =
      (([] : List CustomCommand).map (fun d => Event.invoked d.path) ++
        [Event.invoked ccA.path], .error (.handlerErr "boom")) :=
  C1_amended "!" [ccA, ccB] msgGo [ccA, ccB] [] [ccB] ccA (.handlerErr "boom")
    rfl rfl (fun d hd => absurd hd (List.not_mem_nil d)) rfl

/-- C8, counterexample: when a matched handler raises, the sequence of
handler invocations is a strict prefix of the matched subsequence, not
equal to it. -/
theorem C8_counterexample :
    find_commands "!" [ccA8, ccB8] msgGo = .ok [ccA8, ccB8] ∧
    invokedOf (execute_all "!" [ccA8, ccB8] msgGo).1 ≠
      [ccA8, ccB8].map CustomCommand.path := by
  exact ⟨rfl, by decide⟩

/-- C8 (corrected): the sequence of handler invocations of a dispatch
pass is an initial segment of the matched commands in registry order —
so an earlier-registered matched command is always invoked before a
later one — and it is the whole matched subsequence whenever every
matched handler settles normally. -/
theorem C8_amended (p : String) (cmds : List CustomCommand) (ctx : Message)
    (matched : List CustomCommand)
    (hf : find_commands p cmds ctx = .ok matched) :
    (∃ n, invokedOf (execute_all p cmds ctx).1 =
        (matched.map CustomCommand.path).take n) ∧
    ((∀ c ∈ matched, ∃ b, actionResult p ctx c = .ok b) →
      invokedOf (execute_all p cmds ctx).1 = matched.map CustomCommand.path) := by
  constructor
  · obtain ⟨n, hn⟩ := run_invoked_take p ctx matched
    refine ⟨n, ?_⟩
    unfold execute_all
    rcases hrun : run_actions p ctx matched with ⟨evs, res⟩
    rw [hrun] at hn
    rcases res with e | del
    · simp only [hf, hrun]
      simpa using hn
    · simp only [hf, hrun]
      rw [invokedOf_append]
      cases del <;> simpa [invokedOf] using hn
  · intro h
    unfold execute_all
    simp only [hf, run_actions_ok p ctx matched h]
    rw [invokedOf_append, invokedOf_map]
    cases matched.any (actionTrue p ctx) <;> simp [invokedOf]

/-- C8 witness: the amended claim evaluated at a registry whose first
matched handler raises. -/
theorem C8_amended_witness :
    (∃ n, invokedOf (execute_all "!" [ccA8, ccB8] msgGo).1 =
        ([ccA8, ccB8].map CustomCommand.path).take n) ∧
    ((∀ c ∈ [ccA8, ccB8], ∃ b, actionResult "!" msgGo c = .ok b) →
      invokedOf (execute_all "!" [ccA8, ccB8] msgGo).1 =
        [ccA8, ccB8].map CustomCommand.path) :=
  C8_amended "!" [ccA8, ccB8] msgGo [ccA8, ccB8] rfl

/-- C2, counterexample: a parse failure on the first definition file
raises and aborts the whole scan, so the later, perfectly valid
definition (shown valid by the second conjunct) is never loaded. -/
theorem C2_counterexample :
    load_command_library resolve0 [fBad, fGood] [] = ([], .error .yamlError) ∧
    validate_command ⟨fGood.path, specGood.trigger,
      CCTriggerType.from_string specGood.cmdtype, specGood.require,
      no_such_action⟩ = true := ⟨rfl, rfl⟩

/-- C2 (corrected): a failure to parse one definition file or to
resolve its handler routine raises out of the scan loop and aborts the
scan: the registry keeps exactly the commands loaded before that file
and no later file in the scan is loaded. -/
theorem C2_amended (resolve : String → Except PyErr CCAction) (f : CommandFile)
    (fs : List CommandFile) (reg : List (String × CustomCommand)) (e : PyErr)
    (h : load_one resolve reg f = (reg, .error e)) :
    load_command_library resolve (f :: fs) reg = (reg, .error e) := by
  unfold load_command_library
  simp only [h]

/-- C2 witness: the amended claim evaluated at a single malformed
file. -/
theorem C2_amended_witness :
    load_command_library resolve0 [fBad] [] = ([], .error .yamlError) :=
  C2_amended resolve0 fBad [] [] .yamlError rfl

/-- C10 (confirmed): re-running the load pass over the same directory
reproduces the registry of the first pass exactly (no re-parsing of
registered paths, since entries are keyed by definition-file path), and
loading never introduces duplicate keys. -/
theorem C10_thm (resolve : String → Except PyErr CCAction)
    (files : List CommandFile) (reg reg' : List (String × CustomCommand))
    (res : Except PyErr Unit)
    (h : load_command_library resolve files reg = (reg', res)) :
    load_command_library resolve files reg' = (reg', res) ∧
    ((regKeys reg).Nodup → (regKeys reg').Nodup) := by
  refine ⟨load_twice resolve files reg reg' res h, fun hn => ?_⟩
  have h2 := load_keys_nodup resolve files reg hn
  rw [h] at h2
  exact h2

/-- C10 witness: scanning one well-formed file twice leaves the
registry of the first scan unchanged. -/
theorem C10_witness :
    load_command_library resolve0 [fG10] regTen = (regTen, .ok ()) ∧
    ((regKeys []).Nodup → (regKeys regTen).Nodup) :=
  C10_thm resolve0 [fG10] [] regTen (.ok ()) rfl
